import Mathlib

/-!
# Verification of the chunked encryption/decryption engine of
# `expressjs-secure-file-storage` (`src/routes/files.js`)

Shallow embedding of the chunk codec (`encryptChunk` / `decryptChunk`),
the upload chunking loop (`router.post('/upload')`), the download
reassembly loop (`router.get('/download/:fileId')`) and the delete
handler (`router.delete('/:fileId')`).

Bytes are modelled as `Nat` (values below 256 in practice; nothing here
depends on the range).  The AES-256 block primitive, SHA-256 and the
password-based legacy decipher (`crypto.createDecipher`) are external
library primitives, not code of this repository; they are modelled as an
abstract `CryptoPrim` bundle whose block-cipher halves are inverse on
16-byte blocks.  CBC chaining and PKCS#7 padding — the semantics of the
`'aes-256-cbc'` cipher the code requests — are modelled concretely.
-/

deriving instance DecidableEq for Except

/-- XOR of two byte blocks, pointwise (CBC chaining step). -/
def xorBlock (a b : List Nat) : List Nat := List.zipWith Nat.xor a b

/-- Split a byte list into consecutive 16-byte blocks (fuel-indexed worker,
structural so that the kernel can evaluate it). -/
def toBlocksGo : Nat → List Nat → List (List Nat)
  | 0, _ => []
  | fuel + 1, l => if l.length = 0 then [] else l.take 16 :: toBlocksGo fuel (l.drop 16)

/-- Split a byte list into consecutive 16-byte blocks (last may be short). -/
def toBlocks (l : List Nat) : List (List Nat) := toBlocksGo l.length l

/-- PKCS#7 pad length for an input of `n` bytes: always in `1..16`. -/
def padLen (n : Nat) : Nat := 16 - n % 16

/-- PKCS#7 padding: append `padLen` copies of the byte `padLen`. -/
def pad (l : List Nat) : List Nat := l ++ List.replicate (padLen l.length) (padLen l.length)

/-- PKCS#7 unpadding with full validation, as OpenSSL's `final()` performs it:
the last byte `n` must be in `1..16` and the last `n` bytes must all equal `n`. -/
def unpad (l : List Nat) : Option (List Nat) :=
  match l.getLast? with
  | none => none
  | some n =>
    if 1 ≤ n ∧ n ≤ 16 ∧ n ≤ l.length ∧ l.drop (l.length - n) = List.replicate n n then
      some (l.take (l.length - n))
    else none

/-- The external cryptographic primitives used by `files.js`:
an AES-256 block cipher pair (inverse on 16-byte blocks), SHA-256
(`crypto.createHash('sha256')`), and the password-keyed legacy decipher
(`crypto.createDecipher('aes-256-cbc', password)` applied to a whole
buffer, which either yields a plaintext or throws with a message). -/
structure CryptoPrim where
  enc : List Nat → List Nat → List Nat
  dec : List Nat → List Nat → List Nat
  sha256 : String → List Nat
  legacyDecrypt : String → List Nat → Except String (List Nat)
  enc_len : ∀ k b, b.length = 16 → (enc k b).length = 16
  dec_enc : ∀ k b, b.length = 16 → dec k (enc k b) = b

/-- `getKey` from `files.js`: derive the 32-byte key as the SHA-256 digest
of the secret. -/
def getKey (Cp : CryptoPrim) (key : String) : List Nat := Cp.sha256 key

/-- CBC encryption of a list of plaintext blocks: each block is XORed with
the previous ciphertext block (initially the IV) and put through the
block cipher. -/
def cbcEncBlocks (Cp : CryptoPrim) (k : List Nat) : List Nat → List (List Nat) → List (List Nat)
  | _, [] => []
  | prev, b :: bs =>
    Cp.enc k (xorBlock prev b) :: cbcEncBlocks Cp k (Cp.enc k (xorBlock prev b)) bs

/-- CBC decryption of a list of ciphertext blocks. -/
def cbcDecBlocks (Cp : CryptoPrim) (k : List Nat) : List Nat → List (List Nat) → List (List Nat)
  | _, [] => []
  | prev, c :: cs => xorBlock prev (Cp.dec k c) :: cbcDecBlocks Cp k c cs

/-- `'aes-256-cbc'` encryption of a whole buffer: PKCS#7-pad, split into
16-byte blocks, CBC-chain, concatenate. -/
def cbcEncrypt (Cp : CryptoPrim) (k iv pt : List Nat) : List Nat :=
  (cbcEncBlocks Cp k iv (toBlocks (pad pt))).flatten

/-- `'aes-256-cbc'` decryption of a whole buffer: the ciphertext length
must be a positive multiple of the block size, and the padding must
validate; otherwise the decipher throws (modelled as `none`). -/
def cbcDecrypt (Cp : CryptoPrim) (k iv ct : List Nat) : Option (List Nat) :=
  if ct.length % 16 = 0 then unpad ((cbcDecBlocks Cp k iv (toBlocks ct)).flatten) else none

/-- `encryptChunk` from `files.js`: AES-256-CBC under `getKey key` and a
16-byte IV, emitted as `[marker 1] ++ IV ++ ciphertext`.  The IV
(`generateIV()`, fresh randomness per call) is passed as an argument. -/
def encryptChunk (Cp : CryptoPrim) (iv : List Nat) (chunk : List Nat) (key : String) : List Nat :=
  1 :: iv ++ cbcEncrypt Cp (getKey Cp key) iv chunk

/-- The error surfaced by `decryptChunk`'s outer `catch`: the diagnostic
detail logged there (`chunkLength`, `firstBytes`, i.e. the first 5 bytes)
together with the thrown message `Failed to decrypt chunk: ...`. -/
structure DecryptError where
  chunkLength : Nat
  firstBytes : List Nat
  msg : String
deriving DecidableEq

/-- Failure result of `decryptChunk`: diagnostics are computed from the
chunk alone (its length and its first 5 bytes), plus the wrapped message. -/
def decryptFail (chunk : List Nat) (m : String) : Except DecryptError (List Nat) :=
  .error ⟨chunk.length, chunk.take 5, "Failed to decrypt chunk: " ++ m⟩

/-- The current-format branch of `decryptChunk`: IV = bytes 1..17,
ciphertext = bytes 17.., AES-256-CBC decrypt under the derived key. -/
def currentDecode (Cp : CryptoPrim) (chunk : List Nat) (key : String) :
    Except DecryptError (List Nat) :=
  match cbcDecrypt Cp (getKey Cp key) ((chunk.drop 1).take 16) (chunk.drop 17) with
  | some p => .ok p
  | none => decryptFail chunk "bad decrypt"

/-- The legacy branch of `decryptChunk`: first try
`crypto.createDecipher('aes-256-cbc', key)` with the raw secret; if that
throws, retry once with the hex text of the derived key; if the retry
also throws, the outer catch surfaces the failure. -/
def legacyDecode (Cp : CryptoPrim) (chunk : List Nat) (key : String) (hexKey : String) :
    Except DecryptError (List Nat) :=
  match Cp.legacyDecrypt key chunk with
  | .ok p => .ok p
  | .error _ =>
    match Cp.legacyDecrypt hexKey chunk with
    | .ok p => .ok p
    | .error m => decryptFail chunk m

/-- Hex digit for a value below 16, as `Buffer.toString('hex')` produces. -/
def hexDigit (n : Nat) : Char :=
  if n < 10 then Char.ofNat (48 + n) else Char.ofNat (87 + n)

/-- `Buffer.toString('hex')`: two lowercase hex digits per byte. -/
def bufToHex (l : List Nat) : String :=
  String.mk ((l.map (fun b => [hexDigit (b / 16), hexDigit (b % 16)])).flatten)

/-- `decryptChunk` from `files.js`: reject empty chunks; first byte `1`
selects the current format (rejecting chunks shorter than 18 bytes);
any other first byte selects the legacy branch. -/
def decryptChunk (Cp : CryptoPrim) (chunk : List Nat) (key : String) :
    Except DecryptError (List Nat) :=
  if chunk.length = 0 then decryptFail chunk "Empty chunk received"
  else if chunk.headD 0 = 1 then
    if chunk.length < 18 then decryptFail chunk "Chunk too small for new encryption format"
    else currentDecode Cp chunk key
  else legacyDecode Cp chunk key (bufToHex (getKey Cp key))

/-- Which branch `decryptChunk`'s control flow takes on a given wire
buffer (this mirrors the `if` structure of `decryptChunk` exactly). -/
inductive DecodePath where
  | current
  | legacy
  | emptyFail
  | tooSmallFail
deriving DecidableEq

/-- The branch of `decryptChunk` selected by a wire buffer. -/
def decodePathOf (chunk : List Nat) : DecodePath :=
  if chunk.length = 0 then .emptyFail
  else if chunk.headD 0 = 1 then
    if chunk.length < 18 then .tooSmallFail else .current
  else .legacy

/-! ## The upload, download and delete routes

`router.post('/upload')` reads the staged file in `CHUNK_SIZE`-byte
windows at offsets `i * CHUNK_SIZE`, encrypts each window, writes it to
`chunksDir/chunk-i`, and only after the loop finishes appends a metadata
record (with the list of chunk paths) to `files.json`.  The loop is
modelled with the iteration count `totalChunks` as fuel, the `bytesRead
=== 0` break, and an optional injected write failure `failAt`: when
`fs.writeFile` for window `failAt` throws, control jumps to the route's
`catch`, which returns 500 without deleting anything — the chunks already
written stay, and no record is appended. -/

/-- `Math.ceil(size / CHUNK_SIZE)` for natural `size` and `S ≥ 1`. -/
def totalChunks (size S : Nat) : Nat := (size + S - 1) / S

/-- The `i`-th read window: up to `S` bytes at offset `i * S`. -/
def window (P : List Nat) (S i : Nat) : List Nat := (P.drop (i * S)).take S

/-- `path.join(chunksDir, 'chunk-' + i)`. -/
def chunkPath (dir : String) (i : Nat) : String := dir ++ "/chunk-" ++ toString i

/-- A file-metadata record as stored in `files.json` (the fields the
claims are about: id, declared size, ordered chunk-path list). -/
structure FileRecord where
  id : String
  size : Nat
  chunks : List String
deriving DecidableEq

/-- The upload chunking loop.  State: next window index `i`, remaining
iterations (fuel, started at `totalChunks`), the chunks persisted so far
(path and encrypted bytes, in write order).  Returns the persisted chunks
and whether the loop completed without a write failure. -/
def uploadLoop (Cp : CryptoPrim) (ivs : Nat → List Nat) (key : String) (dir : String)
    (P : List Nat) (S : Nat) (failAt : Option Nat) :
    Nat → Nat → List (String × List Nat) → List (String × List Nat) × Bool
  | _, 0, acc => (acc, true)
  | i, fuel + 1, acc =>
    if (window P S i).length = 0 then (acc, true)
    else if failAt = some i then (acc, false)
    else uploadLoop Cp ivs key dir P S failAt (i + 1) fuel
        (acc ++ [(chunkPath dir i, encryptChunk Cp (ivs i) (window P S i) key)])

/-- The upload route: run the chunking loop; on success append the
metadata record (id from `Date.now()`, passed in as `fid`), on failure
return 500 leaving the already-written chunks in place and the metadata
untouched. -/
def uploadRoute (Cp : CryptoPrim) (ivs : Nat → List Nat) (key fid dir : String)
    (P : List Nat) (S : Nat) (failAt : Option Nat) :
    List (String × List Nat) × Option FileRecord :=
  ((uploadLoop Cp ivs key dir P S failAt 0 (totalChunks P.length S) []).1,
   if (uploadLoop Cp ivs key dir P S failAt 0 (totalChunks P.length S) []).2 then
     some ⟨fid, P.length,
       (uploadLoop Cp ivs key dir P S failAt 0 (totalChunks P.length S) []).1.map Prod.fst⟩
   else none)

/-- The download loop of `router.get('/download/:fileId')`: read each
stored chunk in index order, reject empty chunk files, decrypt with
`decryptChunk`, concatenate onto the response; any failure aborts the
whole download (`none`). -/
def retrieve (Cp : CryptoPrim) (stored : List (List Nat)) (key : String) : Option (List Nat) :=
  match stored with
  | [] => some []
  | c :: cs =>
    if c.length = 0 then none
    else
      match decryptChunk Cp c key, retrieve Cp cs key with
      | .ok p, some rest => some (p ++ rest)
      | _, _ => none

/-- Status of `router.delete('/:fileId')`: 200, 404 (no record with that
id) or 500 (the handler threw — in particular `path.dirname(file.chunks[0])`
on a record with an empty chunk list throws a `TypeError`, because
`file.chunks[0]` is `undefined` and `path.dirname` requires a string). -/
inductive DeleteStatus where
  | ok
  | notFound
  | serverError
deriving DecidableEq

/-- The delete route: find the first record whose id matches
(`findIndex`); 404 if none; otherwise compute `path.dirname(chunks[0])`
(throwing → 500 if the chunk list is empty, with the metadata unchanged),
remove the chunk directory (`fs.rm` with `force: true` cannot fail on a
missing directory) and splice the record out of the metadata. -/
def deleteRoute : List FileRecord → String → List FileRecord × DeleteStatus
  | [], _ => ([], .notFound)
  | f :: fs, fid =>
    if f.id = fid then
      match f.chunks with
      | [] => (f :: fs, .serverError)
      | _ :: _ => (fs, .ok)
    else
      let r := deleteRoute fs fid
      (f :: r.1, r.2)

/-- Decrypted chunk sizes for a file of `size` bytes at chunk size `S`:
the length of each read window. -/
def chunkSizes (size S : Nat) : List Nat :=
  (List.range (totalChunks size S)).map (fun i => min S (size - i * S))

/-! ## Concrete primitive instances (for evaluating the development on
concrete inputs). -/

/-- A concrete `CryptoPrim` whose block cipher is the identity and whose
legacy decipher always throws `bad decrypt` (as a decipher under a wrong
key does). -/
def idPrim : CryptoPrim where
  enc := fun _ b => b
  dec := fun _ b => b
  sha256 := fun _ => List.replicate 32 0
  legacyDecrypt := fun _ _ => .error "bad decrypt"
  enc_len := fun _ _ h => h
  dec_enc := fun _ _ _ => rfl

/-- A concrete `CryptoPrim` whose legacy decipher always succeeds with
the fixed plaintext `[7]` — used to observe which branch `decryptChunk`
selects. -/
def legacyOkPrim : CryptoPrim where
  enc := fun _ b => b
  dec := fun _ b => b
  sha256 := fun _ => List.replicate 32 0
  legacyDecrypt := fun _ _ => .ok [7]
  enc_len := fun _ _ h => h
  dec_enc := fun _ _ _ => rfl

/-- The all-zero 16-byte IV, for concrete instantiations. -/
def iv0 : List Nat := List.replicate 16 0

/-- A second concrete 16-byte IV, distinct from `iv0`. -/
def iv1 : List Nat := 1 :: List.replicate 15 0

/-! ## Lemmas: XOR blocks, 16-byte blocking, PKCS#7 padding -/

theorem xorBlock_length (a b : List Nat) : (xorBlock a b).length = min a.length b.length := by
  simp [xorBlock]

theorem xorBlock_xorBlock (a : List Nat) : ∀ b : List Nat, a.length = b.length →
    xorBlock a (xorBlock a b) = b := by
  induction a with
  | nil => intro b h; cases b with
    | nil => rfl
    | cons y b => simp at h
  | cons x a ih =>
    intro b h
    cases b with
    | nil => simp at h
    | cons y b =>
      have h' : a.length = b.length := by simpa using h
      simp only [xorBlock, List.zipWith_cons_cons]
      exact congrArg₂ (· :: ·) (Nat.xor_cancel_left x y) (ih b h')

theorem toBlocksGo_flatten : ∀ (fuel : Nat) (l : List Nat), l.length ≤ fuel →
    (toBlocksGo fuel l).flatten = l := by
  intro fuel
  induction fuel with
  | zero =>
    intro l h
    have hl : l = [] := List.eq_nil_of_length_eq_zero (by omega)
    simp [hl, toBlocksGo]
  | succ fuel ih =>
    intro l h
    by_cases h0 : l.length = 0
    · have hl : l = [] := List.eq_nil_of_length_eq_zero h0
      simp [hl, toBlocksGo]
    · simp only [toBlocksGo, h0, if_false, List.flatten_cons]
      rw [ih (l.drop 16) (by simp [List.length_drop]; omega)]
      exact List.take_append_drop 16 l

theorem flatten_toBlocks (l : List Nat) : (toBlocks l).flatten = l :=
  toBlocksGo_flatten l.length l le_rfl

theorem toBlocksGo_all16 : ∀ (fuel : Nat) (l : List Nat), l.length % 16 = 0 →
    ∀ b ∈ toBlocksGo fuel l, b.length = 16 := by
  intro fuel
  induction fuel with
  | zero => intro l _ b hb; simp [toBlocksGo] at hb
  | succ fuel ih =>
    intro l hmod b hb
    by_cases h0 : l.length = 0
    · simp [toBlocksGo, h0] at hb
    · simp only [toBlocksGo, h0, if_false, List.mem_cons] at hb
      rcases hb with hb | hb
      · subst hb
        simp only [List.length_take]
        omega
      · exact ih (l.drop 16) (by simp [List.length_drop]; omega) b hb

theorem toBlocks_all16 (l : List Nat) (h : l.length % 16 = 0) :
    ∀ b ∈ toBlocks l, b.length = 16 :=
  toBlocksGo_all16 l.length l h

theorem toBlocksGo_blocks : ∀ (bs : List (List Nat)) (fuel : Nat),
    (∀ b ∈ bs, b.length = 16) → bs.flatten.length ≤ fuel →
    toBlocksGo fuel bs.flatten = bs := by
  intro bs
  induction bs with
  | nil => intro fuel _ _; cases fuel <;> simp [toBlocksGo]
  | cons b bs ih =>
    intro fuel hall hfuel
    have hb : b.length = 16 := hall b (by simp)
    have hlen : (b :: bs).flatten.length = 16 + bs.flatten.length := by
      simp [List.flatten_cons, hb]
    cases fuel with
    | zero => omega
    | succ fuel =>
      simp only [List.flatten_cons] at hlen hfuel ⊢
      simp only [toBlocksGo]
      rw [if_neg (by omega)]
      have htake : (b ++ bs.flatten).take 16 = b := by
        rw [← hb]; exact List.take_left b bs.flatten
      have hdrop : (b ++ bs.flatten).drop 16 = bs.flatten := by
        rw [← hb]; exact List.drop_left b bs.flatten
      rw [htake, hdrop, ih fuel (fun x hx => hall x (by simp [hx])) (by omega)]

theorem toBlocks_flatten (bs : List (List Nat)) (h : ∀ b ∈ bs, b.length = 16) :
    toBlocks bs.flatten = bs :=
  toBlocksGo_blocks bs bs.flatten.length h le_rfl

theorem flatten_all16_length : ∀ bs : List (List Nat), (∀ b ∈ bs, b.length = 16) →
    bs.flatten.length = 16 * bs.length := by
  intro bs
  induction bs with
  | nil => intro _; simp
  | cons b bs ih =>
    intro hall
    have hb : b.length = 16 := hall b (by simp)
    simp only [List.flatten_cons, List.length_append, List.length_cons, hb,
      ih (fun x hx => hall x (by simp [hx]))]
    ring

theorem padLen_pos (n : Nat) : 1 ≤ padLen n := by unfold padLen; omega

theorem padLen_le (n : Nat) : padLen n ≤ 16 := by unfold padLen; omega

theorem pad_length (l : List Nat) : (pad l).length = l.length + padLen l.length := by
  simp [pad]

theorem pad_length_mod (l : List Nat) : (pad l).length % 16 = 0 := by
  rw [pad_length]; unfold padLen; omega

theorem unpad_pad (l : List Nat) : unpad (pad l) = some l := by
  have hp1 : 1 ≤ padLen l.length := padLen_pos _
  have hp16 : padLen l.length ≤ 16 := padLen_le _
  have hlast : (pad l).getLast? = some (padLen l.length) := by
    unfold pad
    obtain ⟨q, hq⟩ : ∃ q, padLen l.length = q + 1 := ⟨padLen l.length - 1, by omega⟩
    rw [hq, List.replicate_succ', ← List.append_assoc]
    exact List.getLast?_concat _
  have hlen : (pad l).length = l.length + padLen l.length := pad_length l
  have hdrop : (pad l).drop ((pad l).length - padLen l.length) =
      List.replicate (padLen l.length) (padLen l.length) := by
    rw [hlen, Nat.add_sub_cancel]
    unfold pad
    exact List.drop_left l _
  unfold unpad
  rw [hlast]
  dsimp only
  rw [if_pos ⟨hp1, hp16, by omega, hdrop⟩]
  rw [hlen, Nat.add_sub_cancel]
  unfold pad
  rw [List.take_left l _]

/-! ## Lemmas: CBC mode and the chunk codec -/

theorem cbcEncBlocks_all16 (Cp : CryptoPrim) (k : List Nat) :
    ∀ (bs : List (List Nat)) (prev : List Nat), (∀ b ∈ bs, b.length = 16) → prev.length = 16 →
    ∀ c ∈ cbcEncBlocks Cp k prev bs, c.length = 16 := by
  intro bs
  induction bs with
  | nil => intro prev _ _ c hc; simp [cbcEncBlocks] at hc
  | cons b bs ih =>
    intro prev hall hprev c hc
    have hb : b.length = 16 := hall b (by simp)
    have hx : (xorBlock prev b).length = 16 := by
      rw [xorBlock_length, hprev, hb]; exact min_self 16
    simp only [cbcEncBlocks, List.mem_cons] at hc
    rcases hc with hc | hc
    · rw [hc]; exact Cp.enc_len k _ hx
    · exact ih _ (fun x hx' => hall x (by simp [hx'])) (Cp.enc_len k _ hx) c hc

theorem cbcDecBlocks_cbcEncBlocks (Cp : CryptoPrim) (k : List Nat) :
    ∀ (bs : List (List Nat)) (prev : List Nat), (∀ b ∈ bs, b.length = 16) → prev.length = 16 →
    cbcDecBlocks Cp k prev (cbcEncBlocks Cp k prev bs) = bs := by
  intro bs
  induction bs with
  | nil => intro prev _ _; rfl
  | cons b bs ih =>
    intro prev hall hprev
    have hb : b.length = 16 := hall b (by simp)
    have hx : (xorBlock prev b).length = 16 := by
      rw [xorBlock_length, hprev, hb]; exact min_self 16
    simp only [cbcEncBlocks, cbcDecBlocks]
    rw [Cp.dec_enc k _ hx]
    refine congrArg₂ (· :: ·) (xorBlock_xorBlock prev b (by omega)) ?_
    exact ih _ (fun x hx' => hall x (by simp [hx'])) (Cp.enc_len k _ hx)

theorem toBlocks_length_pos (l : List Nat) (h : l.length ≠ 0) : 1 ≤ (toBlocks l).length := by
  unfold toBlocks
  cases hl : l.length with
  | zero => omega
  | succ n =>
    simp only [toBlocksGo]
    rw [if_neg (by omega)]
    simp

theorem cbcEncBlocks_length (Cp : CryptoPrim) (k : List Nat) :
    ∀ (bs : List (List Nat)) (prev : List Nat),
    (cbcEncBlocks Cp k prev bs).length = bs.length := by
  intro bs
  induction bs with
  | nil => intro prev; rfl
  | cons b bs ih => intro prev; simp only [cbcEncBlocks, List.length_cons, ih]

theorem cbcEncrypt_length (Cp : CryptoPrim) (k iv pt : List Nat) (hiv : iv.length = 16) :
    (cbcEncrypt Cp k iv pt).length % 16 = 0 ∧ 16 ≤ (cbcEncrypt Cp k iv pt).length := by
  have hblocks : ∀ b ∈ toBlocks (pad pt), b.length = 16 := toBlocks_all16 _ (pad_length_mod pt)
  have hall : ∀ c ∈ cbcEncBlocks Cp k iv (toBlocks (pad pt)), c.length = 16 :=
    cbcEncBlocks_all16 Cp k _ iv hblocks hiv
  have hlen : (cbcEncrypt Cp k iv pt).length =
      16 * (cbcEncBlocks Cp k iv (toBlocks (pad pt))).length :=
    flatten_all16_length _ hall
  have hpos : 1 ≤ (toBlocks (pad pt)).length := by
    refine toBlocks_length_pos _ ?_
    have := padLen_pos pt.length
    rw [pad_length]
    omega
  rw [hlen, cbcEncBlocks_length]
  omega

theorem cbcDecrypt_cbcEncrypt (Cp : CryptoPrim) (k iv pt : List Nat) (hiv : iv.length = 16) :
    cbcDecrypt Cp k iv (cbcEncrypt Cp k iv pt) = some pt := by
  have hblocks : ∀ b ∈ toBlocks (pad pt), b.length = 16 := toBlocks_all16 _ (pad_length_mod pt)
  have hall : ∀ c ∈ cbcEncBlocks Cp k iv (toBlocks (pad pt)), c.length = 16 :=
    cbcEncBlocks_all16 Cp k _ iv hblocks hiv
  unfold cbcDecrypt
  rw [if_pos (cbcEncrypt_length Cp k iv pt hiv).1]
  unfold cbcEncrypt
  rw [toBlocks_flatten _ hall, cbcDecBlocks_cbcEncBlocks Cp k _ iv hblocks hiv,
    flatten_toBlocks, unpad_pad]

theorem encryptChunk_length (Cp : CryptoPrim) (iv w : List Nat) (key : String)
    (hiv : iv.length = 16) : 33 ≤ (encryptChunk Cp iv w key).length := by
  have h := (cbcEncrypt_length Cp (getKey Cp key) iv w hiv).2
  simp only [encryptChunk, List.length_cons, List.length_append, hiv]
  omega

theorem encryptChunk_head (Cp : CryptoPrim) (iv w : List Nat) (key : String) :
    (encryptChunk Cp iv w key).headD 0 = 1 := rfl

theorem encryptChunk_iv (Cp : CryptoPrim) (iv w : List Nat) (key : String)
    (hiv : iv.length = 16) : ((encryptChunk Cp iv w key).drop 1).take 16 = iv := by
  show ((iv ++ cbcEncrypt Cp (getKey Cp key) iv w).take 16) = iv
  rw [← hiv]
  exact List.take_left iv _

theorem encryptChunk_ct (Cp : CryptoPrim) (iv w : List Nat) (key : String)
    (hiv : iv.length = 16) :
    (encryptChunk Cp iv w key).drop 17 = cbcEncrypt Cp (getKey Cp key) iv w := by
  show ((iv ++ cbcEncrypt Cp (getKey Cp key) iv w).drop 16) =
    cbcEncrypt Cp (getKey Cp key) iv w
  rw [← hiv]
  exact List.drop_left iv _

theorem decryptChunk_encryptChunk (Cp : CryptoPrim) (iv w : List Nat) (key : String)
    (hiv : iv.length = 16) :
    decryptChunk Cp (encryptChunk Cp iv w key) key = .ok w := by
  have h33 := encryptChunk_length Cp iv w key hiv
  unfold decryptChunk
  rw [if_neg (by omega), if_pos (encryptChunk_head Cp iv w key), if_neg (by omega)]
  unfold currentDecode
  rw [encryptChunk_iv Cp iv w key hiv, encryptChunk_ct Cp iv w key hiv,
    cbcDecrypt_cbcEncrypt Cp (getKey Cp key) iv w hiv]

/-! ## Lemmas: the upload chunking loop -/

theorem window_length (P : List Nat) (S i : Nat) :
    (window P S i).length = min S (P.length - i * S) := by
  simp [window, List.length_take, List.length_drop]

theorem window_pos (P : List Nat) (S i : Nat) (hS : 1 ≤ S)
    (hi : i < totalChunks P.length S) : (window P S i).length ≠ 0 := by
  rw [window_length]
  unfold totalChunks at hi
  have h1 : (i + 1) * S ≤ P.length + S - 1 :=
    (Nat.le_div_iff_mul_le (by omega)).mp (by omega)
  have h2 : (i + 1) * S = i * S + S := by ring
  omega

theorem length_le_totalChunks_mul (len S : Nat) (hS : 1 ≤ S) :
    len ≤ totalChunks len S * S := by
  unfold totalChunks
  rcases Nat.eq_zero_or_pos len with h0 | hpos
  · simp [h0]
  · have h1 : len + S - 1 = (len - 1) + S := by omega
    rw [h1, Nat.add_div_right _ (by omega)]
    have h2 : len - 1 < ((len - 1) / S + 1) * S :=
      (Nat.div_lt_iff_lt_mul (by omega)).mp (Nat.lt_succ_self _)
    have h3 : ((len - 1) / S + 1) * S = (len - 1) / S * S + S := by ring
    omega

theorem uploadLoop_acc (Cp : CryptoPrim) (ivs : Nat → List Nat) (key dir : String)
    (P : List Nat) (S : Nat) (failAt : Option Nat) :
    ∀ (fuel i : Nat) (acc : List (String × List Nat)),
    uploadLoop Cp ivs key dir P S failAt i fuel acc =
      (acc ++ (uploadLoop Cp ivs key dir P S failAt i fuel []).1,
       (uploadLoop Cp ivs key dir P S failAt i fuel []).2) := by
  intro fuel
  induction fuel with
  | zero => intro i acc; simp [uploadLoop]
  | succ fuel ih =>
    intro i acc
    simp only [uploadLoop]
    by_cases h0 : (window P S i).length = 0
    · simp [h0]
    · rw [if_neg h0, if_neg h0]
      by_cases hf : failAt = some i
      · simp [hf]
      · rw [if_neg hf, if_neg hf]
        simp only [List.nil_append]
        rw [ih (i + 1) (acc ++ [(chunkPath dir i, encryptChunk Cp (ivs i) (window P S i) key)]),
          ih (i + 1) [(chunkPath dir i, encryptChunk Cp (ivs i) (window P S i) key)]]
        simp [List.append_assoc]

theorem uploadLoop_retrieve (Cp : CryptoPrim) (ivs : Nat → List Nat)
    (hiv : ∀ i, (ivs i).length = 16) (key dir : String) (P : List Nat) (S : Nat) (hS : 1 ≤ S) :
    ∀ (fuel i : Nat), P.length ≤ i * S + fuel * S →
    retrieve Cp ((uploadLoop Cp ivs key dir P S none i fuel []).1.map Prod.snd) key =
      some (P.drop (i * S)) := by
  intro fuel
  induction fuel with
  | zero =>
    intro i h
    simp only [uploadLoop, List.map_nil]
    rw [List.drop_eq_nil_of_le (by omega)]
    rfl
  | succ fuel ih =>
    intro i h
    simp only [uploadLoop]
    by_cases h0 : (window P S i).length = 0
    · rw [if_pos h0]
      have hnil : P.drop (i * S) = [] := by
        rw [window_length] at h0
        exact List.drop_eq_nil_of_le (by omega)
      rw [hnil]
      rfl
    · rw [if_neg h0, if_neg (by simp : ¬ (none : Option Nat) = some i)]
      simp only [List.nil_append]
      rw [uploadLoop_acc Cp ivs key dir P S none fuel (i + 1)
        [(chunkPath dir i, encryptChunk Cp (ivs i) (window P S i) key)]]
      simp only [List.map_append, List.map_cons, List.map_nil, List.cons_append,
        List.nil_append, retrieve]
      have h33 := encryptChunk_length Cp (ivs i) (window P S i) key (hiv i)
      rw [if_neg (by omega)]
      rw [decryptChunk_encryptChunk Cp (ivs i) (window P S i) key (hiv i)]
      have harith : (i + 1) * S + fuel * S = i * S + (fuel + 1) * S := by ring
      simp only [List.append_eq, List.nil_append]
      rw [ih (i + 1) (by omega)]
      have hdd : P.drop ((i + 1) * S) = (P.drop (i * S)).drop S := by
        rw [List.drop_drop]
        congr 1
        ring
      rw [hdd]
      show some ((P.drop (i * S)).take S ++ (P.drop (i * S)).drop S) = some (P.drop (i * S))
      rw [List.take_append_drop]

theorem uploadLoop_closed (Cp : CryptoPrim) (ivs : Nat → List Nat) (key dir : String)
    (P : List Nat) (S : Nat) :
    ∀ (fuel i : Nat), (∀ j, i ≤ j → j < i + fuel → (window P S j).length ≠ 0) →
    uploadLoop Cp ivs key dir P S none i fuel [] =
      ((List.range' i fuel).map
        (fun j => (chunkPath dir j, encryptChunk Cp (ivs j) (window P S j) key)), true) := by
  intro fuel
  induction fuel with
  | zero => intro i _; simp [uploadLoop]
  | succ fuel ih =>
    intro i hwin
    simp only [uploadLoop]
    rw [if_neg (hwin i le_rfl (by omega)), if_neg (by simp : ¬ (none : Option Nat) = some i)]
    simp only [List.nil_append]
    rw [uploadLoop_acc Cp ivs key dir P S none fuel (i + 1)
      [(chunkPath dir i, encryptChunk Cp (ivs i) (window P S i) key)]]
    rw [ih (i + 1) (fun j h1 h2 => hwin j (by omega) (by omega))]
    rw [List.range'_succ i fuel 1]
    simp

theorem uploadLoop_fail (Cp : CryptoPrim) (ivs : Nat → List Nat) (key dir : String)
    (P : List Nat) (S : Nat) (N : Nat) :
    ∀ (fuel i : Nat), (∀ j, i ≤ j → j ≤ N → (window P S j).length ≠ 0) →
    i ≤ N → N < i + fuel →
    uploadLoop Cp ivs key dir P S (some N) i fuel [] =
      ((List.range' i (N - i)).map
        (fun j => (chunkPath dir j, encryptChunk Cp (ivs j) (window P S j) key)), false) := by
  intro fuel
  induction fuel with
  | zero => intro i _ hiN hNf; omega
  | succ fuel ih =>
    intro i hwin hiN hNf
    simp only [uploadLoop]
    rw [if_neg (hwin i le_rfl hiN)]
    by_cases hi : i = N
    · rw [if_pos (by rw [hi])]
      simp [hi]
    · rw [if_neg (by simp; omega)]
      simp only [List.nil_append]
      rw [uploadLoop_acc Cp ivs key dir P S (some N) fuel (i + 1)
        [(chunkPath dir i, encryptChunk Cp (ivs i) (window P S i) key)]]
      rw [ih (i + 1) (fun j h1 h2 => hwin j (by omega) h2) (by omega) (by omega)]
      have hsub : N - i = (N - (i + 1)) + 1 := by omega
      rw [hsub, List.range'_succ i (N - (i + 1)) 1]
      simp

/-! ## Lemmas: the delete route -/

theorem deleteRoute_notFound (fid : String) :
    ∀ files : List FileRecord, (∀ f ∈ files, f.id ≠ fid) →
    deleteRoute files fid = (files, .notFound) := by
  intro files
  induction files with
  | nil => intro _; rfl
  | cons f fs ih =>
    intro h
    simp only [deleteRoute]
    rw [if_neg (h f (by simp)), ih (fun g hg => h g (by simp [hg]))]

theorem deleteRoute_second (fid : String) :
    ∀ files : List FileRecord, files.Pairwise (fun a b => a.id ≠ b.id) →
    (deleteRoute files fid).2 = .ok →
    (deleteRoute (deleteRoute files fid).1 fid).2 = .notFound := by
  intro files
  induction files with
  | nil => intro _ hok; simp [deleteRoute] at hok
  | cons f fs ih =>
    intro hp hok
    obtain ⟨h1, h2⟩ := List.pairwise_cons.mp hp
    by_cases hid : f.id = fid
    · cases hc : f.chunks with
      | nil => simp [deleteRoute, hid, hc] at hok
      | cons c cs =>
        simp only [deleteRoute, if_pos hid, hc]
        rw [deleteRoute_notFound fid fs (fun g hg => by
          have := h1 g hg
          rw [← hid]
          exact fun he => this he.symm)]
    · simp only [deleteRoute, if_neg hid] at hok ⊢
      exact ih h2 hok

/-! ## Lemmas: chunk sizes -/

theorem windows_lengths (P : List Nat) (S : Nat) :
    (List.range (totalChunks P.length S)).map (fun i => (window P S i).length) =
      chunkSizes P.length S := by
  unfold chunkSizes
  exact List.map_congr_left (fun i _ => window_length P S i)

/-- `decryptChunk` is exactly the dispatch of its branches along
`decodePathOf`. -/
theorem decryptChunk_dispatch (Cp : CryptoPrim) (chunk : List Nat) (key : String) :
    decryptChunk Cp chunk key =
      match decodePathOf chunk with
      | .emptyFail => decryptFail chunk "Empty chunk received"
      | .tooSmallFail => decryptFail chunk "Chunk too small for new encryption format"
      | .current => currentDecode Cp chunk key
      | .legacy => legacyDecode Cp chunk key (bufToHex (getKey Cp key)) := by
  unfold decryptChunk decodePathOf
  split_ifs <;> rfl

/-! ## Claims -/

/-- C1: for every byte sequence `P` (including empty, shorter than one
chunk, and exact multiples of the chunk size) and chunk size `S ≥ 1`,
ingesting `P` via the upload path (S-byte windows, each encrypted with
`encryptChunk` under the same secret) and retrieving via the download
path (chunks read in index order, decrypted with `decryptChunk` under
the same secret, concatenated) reproduces `P` exactly. -/
theorem claim1_roundtrip (Cp : CryptoPrim) (ivs : Nat → List Nat)
    (hiv : ∀ i, (ivs i).length = 16) (key fid dir : String) (P : List Nat) (S : Nat)
    (hS : 1 ≤ S) :
    retrieve Cp ((uploadRoute Cp ivs key fid dir P S none).1.map Prod.snd) key = some P := by
  unfold uploadRoute
  dsimp only
  rw [uploadLoop_retrieve Cp ivs hiv key dir P S hS (totalChunks P.length S) 0
    (by have := length_le_totalChunks_mul P.length S hS; omega)]
  simp

theorem claim1_roundtrip_witness :
    retrieve idPrim
        ((uploadRoute idPrim (fun _ => iv0) "k" "f" "d" [5, 6, 7, 8] 2 none).1.map Prod.snd)
        "k" = some [5, 6, 7, 8] :=
  claim1_roundtrip idPrim (fun _ => iv0) (fun _ => rfl) "k" "f" "d" [5, 6, 7, 8] 2
    (by decide)

/-- C2 (amended): for every non-empty wire buffer `w`, `decryptChunk`
selects the current-format decode path exactly when `w[0] = 1` and
`len w ≥ 18`; when `w[0] ≠ 1` it selects the legacy decode path; but
when `w[0] = 1` and `len w < 18` it does NOT fall back to the legacy
path — it fails with the `Chunk too small for new encryption format`
error. -/
theorem claim2_amended (Cp : CryptoPrim) (key : String) (w : List Nat) (hw : w ≠ []) :
    (decodePathOf w = .current ↔ w.headD 0 = 1 ∧ 18 ≤ w.length)
    ∧ (w.headD 0 ≠ 1 →
        decryptChunk Cp w key = legacyDecode Cp w key (bufToHex (getKey Cp key))
        ∧ decodePathOf w = .legacy)
    ∧ (w.headD 0 = 1 → w.length < 18 →
        decryptChunk Cp w key = decryptFail w "Chunk too small for new encryption format"
        ∧ decodePathOf w = .tooSmallFail) := by
  have hlen : ¬ w.length = 0 := by
    simp only [List.length_eq_zero]
    exact hw
  refine ⟨?_, ?_, ?_⟩
  · unfold decodePathOf
    rw [if_neg hlen]
    by_cases h1 : w.headD 0 = 1
    · rw [if_pos h1]
      by_cases h2 : w.length < 18
      · rw [if_pos h2]
        constructor
        · intro h; exact absurd h (by decide)
        · rintro ⟨_, hl⟩; exact absurd hl (by omega)
      · rw [if_neg h2]
        constructor
        · intro _; exact ⟨h1, by omega⟩
        · intro _; rfl
    · rw [if_neg h1]
      constructor
      · intro h; exact absurd h (by decide)
      · rintro ⟨ha, _⟩; exact absurd ha h1
  · intro h1
    unfold decryptChunk decodePathOf
    rw [if_neg hlen, if_neg h1, if_neg hlen, if_neg h1]
    exact ⟨rfl, rfl⟩
  · intro h1 h2
    unfold decryptChunk decodePathOf
    rw [if_neg hlen, if_pos h1, if_pos h2, if_neg hlen, if_pos h1, if_pos h2]
    exact ⟨rfl, rfl⟩

theorem claim2_amended_witness :
    (decodePathOf [2, 3] = .legacy)
    ∧ decryptChunk legacyOkPrim [2, 3] "k" =
        legacyDecode legacyOkPrim [2, 3] "k" (bufToHex (getKey legacyOkPrim "k")) :=
  ⟨((claim2_amended legacyOkPrim "k" [2, 3] (by decide)).2.1 (by decide)).2,
   ((claim2_amended legacyOkPrim "k" [2, 3] (by decide)).2.1 (by decide)).1⟩

/-- C2 counterexample: the buffer `[1]` is non-empty and does not satisfy
`w[0] = 1 ∧ len ≥ 18`, so the claim as stated says it selects the legacy
decode path — but `decryptChunk` fails with the `Chunk too small` error
instead of running the legacy branch (which here would have succeeded
with plaintext `[7]`). -/
theorem claim2_counterexample :
    decryptChunk legacyOkPrim [1] "k" =
      .error ⟨1, [1], "Failed to decrypt chunk: Chunk too small for new encryption format"⟩
    ∧ legacyDecode legacyOkPrim [1] "k" (bufToHex (getKey legacyOkPrim "k")) = .ok [7]
    ∧ decryptChunk legacyOkPrim [1] "k" ≠
        legacyDecode legacyOkPrim [1] "k" (bufToHex (getKey legacyOkPrim "k"))
    ∧ decodePathOf [1] ≠ .legacy := by decide

/-- C3 (amended): if the write of the `N`-th chunk fails during an ingest
of `M = totalChunks` chunks (`N < M`), the `N` chunks already written
remain persisted for that fileId (the route's catch performs no rollback)
while no FileRecord is added to the metadata store. -/
theorem claim3_amended (Cp : CryptoPrim) (ivs : Nat → List Nat) (key fid dir : String)
    (P : List Nat) (S N : Nat) (hS : 1 ≤ S) (hN : N < totalChunks P.length S) :
    (uploadRoute Cp ivs key fid dir P S (some N)).1 =
      (List.range' 0 N).map
        (fun j => (chunkPath dir j, encryptChunk Cp (ivs j) (window P S j) key))
    ∧ (uploadRoute Cp ivs key fid dir P S (some N)).2 = none := by
  unfold uploadRoute
  dsimp only
  rw [uploadLoop_fail Cp ivs key dir P S N (totalChunks P.length S) 0
    (fun j _ h2 => window_pos P S j hS (by omega)) (by omega) (by omega)]
  simp

theorem claim3_amended_witness :
    (uploadRoute idPrim (fun _ => iv0) "k" "f" "d" [0, 0] 1 (some 1)).1 =
      (List.range' 0 1).map
        (fun j => (chunkPath "d" j, encryptChunk idPrim iv0 (window [0, 0] 1 j) "k"))
    ∧ (uploadRoute idPrim (fun _ => iv0) "k" "f" "d" [0, 0] 1 (some 1)).2 = none :=
  claim3_amended idPrim (fun _ => iv0) "k" "f" "d" [0, 0] 1 1 (by decide) (by decide)

/-- C3 counterexample: ingesting `[0, 0]` with chunk size 1 (M = 2
chunks) with the write of chunk 1 failing leaves 1 chunk persisted, not
zero — the upload route's catch does not delete already-written chunks. -/
theorem claim3_counterexample :
    (uploadRoute idPrim (fun _ => iv0) "k" "f" "d" [0, 0] 1 (some 1)).1.length = 1
    ∧ (uploadRoute idPrim (fun _ => iv0) "k" "f" "d" [0, 0] 1 (some 1)).2 = none
    ∧ (1 : Nat) ≠ 0 := by decide

/-- C4 (amended): the delete route is not idempotent.  Assuming the
metadata store has pairwise-distinct ids: after a successful delete of
`fid`, a second delete of the same `fid` returns 404 (`notFound`), not
success; and deleting a `fid` whose record has an empty chunk list
returns 500 (`serverError`, from `path.dirname(file.chunks[0])` throwing
on `undefined`) and leaves the store unchanged. -/
theorem claim4_amended (files : List FileRecord) (fid : String) (sz : Nat)
    (rest : List FileRecord) (huniq : files.Pairwise (fun a b => a.id ≠ b.id))
    (hok : (deleteRoute files fid).2 = .ok) :
    (deleteRoute (deleteRoute files fid).1 fid).2 = .notFound
    ∧ deleteRoute ({ id := fid, size := sz, chunks := [] } :: rest) fid =
        ({ id := fid, size := sz, chunks := [] } :: rest, .serverError) := by
  refine ⟨deleteRoute_second fid files huniq hok, ?_⟩
  simp [deleteRoute]

theorem claim4_amended_witness :
    (deleteRoute (deleteRoute [⟨"a", 1, ["p"]⟩] "a").1 "a").2 = .notFound
    ∧ deleteRoute [({ id := "a", size := 0, chunks := [] } : FileRecord)] "a" =
        ([{ id := "a", size := 0, chunks := [] }], .serverError) := by
  have h := claim4_amended [⟨"a", 1, ["p"]⟩] "a" 0 [] (by simp) (by decide)
  exact ⟨h.1, h.2⟩

/-- C4 counterexample: deleting fileId `a` (one record, one chunk) twice
does not succeed both times — the first delete returns success and
removes the record, the second returns 404; and deleting a fileId whose
record has no chunks returns 500.  So purge is not an error-free no-op
in either scenario the claim describes. -/
theorem claim4_counterexample :
    (deleteRoute [⟨"a", 1, ["p"]⟩] "a").2 = .ok
    ∧ (deleteRoute (deleteRoute [⟨"a", 1, ["p"]⟩] "a").1 "a").2 = .notFound
    ∧ DeleteStatus.notFound ≠ .ok
    ∧ (deleteRoute [⟨"b", 0, []⟩] "b").2 = .serverError
    ∧ DeleteStatus.serverError ≠ .ok := by decide

/-- C5 (amended): ingesting an input of exactly 2,621,440 bytes with
chunk size 1,048,576 produces exactly 3 chunks, and the decrypted chunk
lengths are 1,048,576, 1,048,576 and 524,288 (not 403,168: 2,621,440 −
2 × 1,048,576 = 524,288). -/
theorem claim5_amended (Cp : CryptoPrim) (ivs : Nat → List Nat)
    (hiv : ∀ i, (ivs i).length = 16) (key fid dir : String) (P : List Nat)
    (hP : P.length = 2621440) :
    (uploadRoute Cp ivs key fid dir P 1048576 none).1.length = 3
    ∧ (uploadRoute Cp ivs key fid dir P 1048576 none).1.map
        (fun c => decryptChunk Cp c.2 key) =
      [.ok (window P 1048576 0), .ok (window P 1048576 1), .ok (window P 1048576 2)]
    ∧ ((window P 1048576 0).length = 1048576 ∧ (window P 1048576 1).length = 1048576
        ∧ (window P 1048576 2).length = 524288) := by
  have htot : totalChunks P.length 1048576 = 3 := by rw [hP]; decide
  have hclosed := uploadLoop_closed Cp ivs key dir P 1048576 (totalChunks P.length 1048576) 0
    (fun j _ h2 => window_pos P 1048576 j (by omega) (by omega))
  rw [htot] at hclosed
  unfold uploadRoute
  rw [htot]
  dsimp only
  rw [hclosed]
  have hr : List.range' 0 3 = [0, 1, 2] := rfl
  rw [hr]
  simp only [List.map_cons, List.map_nil, List.length_cons, List.length_nil]
  refine ⟨by trivial, ?_, ?_, ?_, ?_⟩
  · rw [decryptChunk_encryptChunk Cp (ivs 0) (window P 1048576 0) key (hiv 0),
      decryptChunk_encryptChunk Cp (ivs 1) (window P 1048576 1) key (hiv 1),
      decryptChunk_encryptChunk Cp (ivs 2) (window P 1048576 2) key (hiv 2)]
  · rw [window_length, hP]; decide
  · rw [window_length, hP]; decide
  · rw [window_length, hP]; decide

theorem claim5_amended_witness :
    ((List.replicate 2621440 (0 : Nat)).length = 2621440)
    ∧ (window (List.replicate 2621440 (0 : Nat)) 1048576 2).length = 524288 :=
  ⟨List.length_replicate 2621440 0,
   (claim5_amended idPrim (fun _ => iv0) (fun _ => rfl) "k" "f" "d"
     (List.replicate 2621440 (0 : Nat)) (List.length_replicate 2621440 0)).2.2.2.2⟩

/-- C5 counterexample: for the concrete input of 2,621,440 zero bytes
with chunk size 1,048,576, the list of decrypted window lengths is
`[1048576, 1048576, 524288]`, not `[1048576, 1048576, 403168]` as the
claim states for the third chunk. -/
theorem claim5_counterexample :
    ((List.range (totalChunks (List.replicate 2621440 (0 : Nat)).length 1048576)).map
        (fun i => (window (List.replicate 2621440 (0 : Nat)) 1048576 i).length)) ≠
      [1048576, 1048576, 403168] := by
  rw [windows_lengths, List.length_replicate]
  decide

/-- C6: on the legacy decode path (non-empty chunk whose first byte is
not 1), `decryptChunk` first attempts the password-keyed decipher with
the raw secret; only if that attempt fails does it retry exactly once
with the hex text of the SHA-256-derived key; if both fail, the surfaced
failure carries the chunk length and the leading (first 5) bytes plus
the cipher's message — the key material appears in none of these
diagnostic fields, which are computed from the chunk alone. -/
theorem claim6_legacy_order (Cp : CryptoPrim) (w : List Nat) (key : String)
    (hw : w ≠ []) (h1 : w.headD 0 ≠ 1) :
    (∀ p, Cp.legacyDecrypt key w = .ok p → decryptChunk Cp w key = .ok p)
    ∧ (∀ m p, Cp.legacyDecrypt key w = .error m →
        Cp.legacyDecrypt (bufToHex (getKey Cp key)) w = .ok p →
        decryptChunk Cp w key = .ok p)
    ∧ (∀ m m2, Cp.legacyDecrypt key w = .error m →
        Cp.legacyDecrypt (bufToHex (getKey Cp key)) w = .error m2 →
        decryptChunk Cp w key =
          .error ⟨w.length, w.take 5, "Failed to decrypt chunk: " ++ m2⟩) := by
  have hlen : ¬ w.length = 0 := by
    simp only [List.length_eq_zero]
    exact hw
  have hch : decryptChunk Cp w key = legacyDecode Cp w key (bufToHex (getKey Cp key)) := by
    unfold decryptChunk
    rw [if_neg hlen, if_neg h1]
  refine ⟨?_, ?_, ?_⟩
  · intro p hp
    rw [hch]
    unfold legacyDecode
    rw [hp]
  · intro m p hm hp
    rw [hch]
    unfold legacyDecode
    rw [hm, hp]
  · intro m m2 hm hm2
    rw [hch]
    unfold legacyDecode
    rw [hm, hm2]
    rfl

theorem claim6_witness :
    decryptChunk idPrim [0] "k" =
      .error ⟨1, [0], "Failed to decrypt chunk: bad decrypt"⟩ :=
  (claim6_legacy_order idPrim [0] "k" (by decide) (by decide)).2.2 "bad decrypt" "bad decrypt"
    rfl rfl

/-- C7: for every plaintext and key, `encryptChunk` always emits the
current wire format — a 1-byte marker equal to 1, then the 16-byte IV,
then the AES-256-CBC ciphertext — and never a legacy-format chunk (its
output always selects the current decode path). -/
theorem claim7_wire_format (Cp : CryptoPrim) (iv w : List Nat) (key : String)
    (hiv : iv.length = 16) :
    (encryptChunk Cp iv w key).take 1 = [1]
    ∧ ((encryptChunk Cp iv w key).drop 1).take 16 = iv
    ∧ (encryptChunk Cp iv w key).drop 17 = cbcEncrypt Cp (getKey Cp key) iv w
    ∧ decodePathOf (encryptChunk Cp iv w key) = .current := by
  have h33 := encryptChunk_length Cp iv w key hiv
  refine ⟨rfl, encryptChunk_iv Cp iv w key hiv, encryptChunk_ct Cp iv w key hiv, ?_⟩
  unfold decodePathOf
  rw [if_neg (by omega), if_pos (encryptChunk_head Cp iv w key), if_neg (by omega)]

theorem claim7_witness :
    (encryptChunk idPrim iv0 [5] "k").take 1 = [1]
    ∧ decodePathOf (encryptChunk idPrim iv0 [5] "k") = .current :=
  ⟨(claim7_wire_format idPrim iv0 [5] "k" rfl).1,
   (claim7_wire_format idPrim iv0 [5] "k" rfl).2.2.2⟩

/-- C8: encrypting the same plaintext twice under the same key with two
distinct 16-byte IVs yields two different current-format wire outputs,
and `decryptChunk` maps each output back to the same plaintext. -/
theorem claim8_iv_uniqueness (Cp : CryptoPrim) (ivA ivB P : List Nat) (key : String)
    (hA : ivA.length = 16) (hB : ivB.length = 16) (hne : ivA ≠ ivB) :
    encryptChunk Cp ivA P key ≠ encryptChunk Cp ivB P key
    ∧ decryptChunk Cp (encryptChunk Cp ivA P key) key = .ok P
    ∧ decryptChunk Cp (encryptChunk Cp ivB P key) key = .ok P := by
  refine ⟨?_, decryptChunk_encryptChunk Cp ivA P key hA,
    decryptChunk_encryptChunk Cp ivB P key hB⟩
  intro he
  apply hne
  have h1 := encryptChunk_iv Cp ivA P key hA
  have h2 := encryptChunk_iv Cp ivB P key hB
  rw [← h1, ← h2, he]

theorem claim8_witness :
    encryptChunk idPrim iv0 [5] "k" ≠ encryptChunk idPrim iv1 [5] "k"
    ∧ decryptChunk idPrim (encryptChunk idPrim iv0 [5] "k") "k" = .ok [5]
    ∧ decryptChunk idPrim (encryptChunk idPrim iv1 [5] "k") "k" = .ok [5] :=
  claim8_iv_uniqueness idPrim iv0 iv1 [5] "k" rfl rfl (by decide)

/-- C9: every output of `encryptChunk` has first byte 1 and length at
least 33 (1-byte marker + 16-byte IV + at least one 16-byte padded
cipher block), so `decryptChunk` applied to a freshly encoded chunk
always takes the current-format branch and never the legacy branch. -/
theorem claim9_always_current (Cp : CryptoPrim) (iv w : List Nat) (key : String)
    (hiv : iv.length = 16) :
    (encryptChunk Cp iv w key).headD 0 = 1
    ∧ 33 ≤ (encryptChunk Cp iv w key).length
    ∧ decodePathOf (encryptChunk Cp iv w key) = .current
    ∧ decodePathOf (encryptChunk Cp iv w key) ≠ .legacy := by
  have h33 := encryptChunk_length Cp iv w key hiv
  have hcur : decodePathOf (encryptChunk Cp iv w key) = .current := by
    unfold decodePathOf
    rw [if_neg (by omega), if_pos (encryptChunk_head Cp iv w key), if_neg (by omega)]
  refine ⟨encryptChunk_head Cp iv w key, h33, hcur, ?_⟩
  rw [hcur]
  decide

theorem claim9_witness :
    (encryptChunk idPrim iv0 [] "k").headD 0 = 1
    ∧ 33 ≤ (encryptChunk idPrim iv0 [] "k").length
    ∧ decodePathOf (encryptChunk idPrim iv0 [] "k") ≠ .legacy := by
  have h := claim9_always_current idPrim iv0 [] "k" rfl
  exact ⟨h.1, h.2.1, h.2.2.2⟩

/-- C10: uploading a zero-byte file creates a FileRecord whose chunk
list is empty, and the delete route on any store whose matching record
has an empty chunk list fails with a 500 error (because the chunks
directory is derived from the first element of the chunk list), leaving
the record in place — so a zero-byte upload produces a record the delete
endpoint cannot remove. -/
theorem claim10_zero_byte (Cp : CryptoPrim) (ivs : Nat → List Nat) (key fid dir : String)
    (S : Nat) (hS : 1 ≤ S) (rest : List FileRecord) :
    (uploadRoute Cp ivs key fid dir [] S none).2 = some ⟨fid, 0, []⟩
    ∧ deleteRoute (({ id := fid, size := 0, chunks := [] } : FileRecord) :: rest) fid =
        (({ id := fid, size := 0, chunks := [] } : FileRecord) :: rest, .serverError) := by
  constructor
  · unfold uploadRoute
    have htot : totalChunks ([] : List Nat).length S = 0 := by
      show (0 + S - 1) / S = 0
      rw [Nat.zero_add]
      exact Nat.div_eq_of_lt (by omega)
    rw [htot]
    rfl
  · simp [deleteRoute]

theorem claim10_witness :
    (uploadRoute idPrim (fun _ => iv0) "k" "f" "d" [] 1 none).2 = some ⟨"f", 0, []⟩
    ∧ deleteRoute [({ id := "f", size := 0, chunks := [] } : FileRecord)] "f" =
        ([{ id := "f", size := 0, chunks := [] }], .serverError) :=
  claim10_zero_byte idPrim (fun _ => iv0) "k" "f" "d" 1 (by decide) []
